import Mathlib

/-
Verification of the trx reactive stream-operator library.

Streams are shallowly embedded as finite lists of fallible values: a Go
channel of trx.Result values that is eventually closed is modelled as the
list of values delivered before the close.  Sequential operator loops
(Take, BufferWithCount, and Map/Filter in the default inline pool mode)
become structural recursions over that list.  The timed windowing
operators (BufferWithTime, BufferWithTimeOrCount) are modelled as event
simulations over time-stamped arrivals with an explicit ticker deadline,
mirroring the select loop of the Go source; times are naturals, the
ticker is ideal (fires at its deadline, period d, Reset moves the
deadline), and when a tick and an element are ready at the same instant
the model services the tick first (Go select would choose randomly; no
claim here depends on a tie).  The ordered worker pool delegates to the
external conc/stream library, which is not part of the repository; its
contract (effects released in submission order, buffering
later-finishing-earlier tasks) is modelled from the spec as an explicit
release state machine quantified over every completion schedule.
-/

namespace trx

/-- Go struct trx.Result (src/trx.go): a value field and a nilable error
field; the error is nil exactly when the Option is none. -/
structure Result (T : Type) (E : Type) where
  v : T
  err : Option E
deriving DecidableEq

/-- Go trx.Ok (src/trx.go:66): success constructor, error field nil. -/
def Ok {T E : Type} (v : T) : Result T E := ⟨v, none⟩

/-- Go trx.Err (src/trx.go:72): error constructor.  The Go argument is an
error interface value, which may itself be nil, hence Option E; the value
field is left at the zero value of T. -/
def Err {T E : Type} [Inhabited T] (err : Option E) : Result T E := ⟨default, err⟩

/-- Go Result.Get (src/trx.go:14): returns both fields. -/
def Result.get {T E : Type} (r : Result T E) : T × Option E := (r.v, r.err)

/-- Go Result.IsOk (src/trx.go:19): true iff the stored error is nil. -/
def Result.isOk {T E : Type} (r : Result T E) : Bool := r.err.isNone

/-- Go Result.IsErr (src/trx.go:24): true iff the stored error is non-nil. -/
def Result.isErr {T E : Type} (r : Result T E) : Bool := r.err.isSome

/-- Go Result.Unwrap (src/trx.go:31): panics when the error is non-nil,
otherwise returns the value.  The panic is modelled as none. -/
def Result.unwrap {T E : Type} (r : Result T E) : Option T :=
  match r.err with
  | some _ => none
  | none => some r.v

@[simp] theorem ok_get {T E : Type} (v : T) : (Ok (E := E) v).get = (v, none) := rfl

@[simp] theorem ok_err {T E : Type} (v : T) : (Ok (E := E) v).err = none := rfl

@[simp] theorem err_get {T E : Type} [Inhabited T] (e : Option E) :
    (Err (T := T) e).get = (default, e) := rfl

end trx

namespace op

/-- Configuration options accepted by the operators (spec section 6; the
parsing code, parseOption and prepareResources, lives in files of the
repository that are not under src).  Only the parts the claims need are
modelled: the cancellation handle carried by WithContext is a time at
which cancellation fires, none meaning never cancelled. -/
inductive OptionArg where
  | withBufferSize (n : Int)
  | withContext (cancelAt : Option Nat)
deriving DecidableEq

/-- Modelled from the spec: prepareResources and parseOption are not under
src; per spec section 3 the configuration is built from the option list
and the cancellation handle defaults to a never-cancelled handle.  This
extracts the cancellation handle, later options overriding earlier ones. -/
def ctxCancelAt (opts : List OptionArg) : Option Nat :=
  opts.foldl (fun acc o =>
    match o with
    | .withContext c => c
    | _ => acc) none

/-- Go op.Timer (src/op/creation.go:30).  The source calls
prepareResources with NO arguments (line 31 reads prepareResources[int]()
rather than prepareResources[int](options...)), so the options parameter
is discarded and the context can never be cancelled by a supplied handle.
The goroutine races the context against time.After d: if the context is
cancelled strictly before d elapses the channel closes with no emission,
otherwise it emits Ok 0 and closes. -/
def Timer {E : Type} (d : Nat) (options : List OptionArg) : List (trx.Result Int E) :=
  let _ := options
  match ctxCancelAt [] with
  | some c => if c < d then [] else [trx.Ok 0]
  | none => [trx.Ok 0]

/-- Modelled from the spec: Timer as documented (spec section 4.2 and the
doc comment of the Go source), honouring the cancellation handle supplied
via its options; if cancelled before d it closes with no emission. -/
def timerSpecified {E : Type} (d : Nat) (options : List OptionArg) : List (trx.Result Int E) :=
  match ctxCancelAt options with
  | some c => if c < d then [] else [trx.Ok 0]
  | none => [trx.Ok 0]

/-- Go op.Range loop body (src/op/creation.go:197): for i := start; i <
stop; i++ emit Ok i, where stop = start + count.  Cancellation is never
fired in the claims about Range, so the ctx.Done branch is omitted. -/
def rangeLoop {E : Type} (i stop : Int) : List (trx.Result Int E) :=
  if i < stop then trx.Ok i :: rangeLoop (i + 1) stop else []
termination_by (stop - i).toNat
decreasing_by
  simp_wf
  omega

/-- Go op.Range (src/op/creation.go:191): emits count consecutive
integers beginning at start, then closes. -/
def Range {E : Type} (start count : Int) : List (trx.Result Int E) :=
  rangeLoop start (start + count)

theorem rangeLoop_eq {E : Type} (n : Nat) :
    ∀ i : Int, rangeLoop (E := E) i (i + n) = (List.range n).map (fun j : Nat => trx.Ok (i + (j : Int))) := by
  induction n with
  | zero =>
    intro i
    rw [rangeLoop, if_neg (by omega)]
    simp
  | succ n ih =>
    intro i
    rw [rangeLoop, if_pos (by omega)]
    have harg : i + ((n + 1 : Nat) : Int) = (i + 1) + (n : Int) := by push_cast; ring
    rw [harg, ih (i + 1), List.range_succ_eq_map, List.map_cons, List.map_map]
    simp only [Nat.cast_zero, add_zero]
    congr 1
    apply List.map_congr_left
    intro j _
    simp only [Function.comp_apply]
    congr 1
    push_cast
    ring

/-- Per-element body of Go op.Map (src/op/transformation.go:65): the
closure submitted to the pool.  Get the source element; a non-nil error is
re-emitted as a Failure; otherwise the mapper runs, a mapper error is
emitted as a Failure, a mapper success as Ok.  The Go mapper returns
(U, error), modelled as U × Option E. -/
def mapElem {T U E : Type} [Inhabited U] (mapper : T → Nat → U × Option E)
    (v : trx.Result T E) (index : Nat) : trx.Result U E :=
  match v.get with
  | (_, some e) => trx.Err (some e)
  | (value, none) =>
    match mapper value index with
    | (_, some e) => trx.Err (some e)
    | (mapped, none) => trx.Ok mapped

/-- Pull loop of Go op.Map (src/op/transformation.go:52) in the default
inline pool mode (pool size 1: newPool runs each submitted closure and
its callback synchronously, in submission order): each source element is
assigned the next index as it is pulled and produces exactly one output. -/
def mapLoop {T U E : Type} [Inhabited U] (mapper : T → Nat → U × Option E) :
    List (trx.Result T E) → Nat → List (trx.Result U E)
  | [], _ => []
  | v :: rest, i => mapElem mapper v i :: mapLoop mapper rest (i + 1)

/-- Go op.Map (src/op/transformation.go:42), inline mode. -/
def Map {T U E : Type} [Inhabited U] (source : List (trx.Result T E))
    (mapper : T → Nat → U × Option E) : List (trx.Result U E) :=
  mapLoop mapper source 0

/-- Per-element body of Go Filter (src/operator/filtering.go:26, same
body in src/op, src/operator/transformation.go:206): source Failures and
predicate errors each emit one Failure; a true predicate re-emits the
value; a false predicate emits nothing. -/
def filterElem {T E : Type} [Inhabited T] (predicate : T → Nat → Bool × Option E)
    (v : trx.Result T E) (index : Nat) : List (trx.Result T E) :=
  match v.get with
  | (_, some e) => [trx.Err (some e)]
  | (value, none) =>
    match predicate value index with
    | (_, some e) => [trx.Err (some e)]
    | (true, none) => [trx.Ok value]
    | (false, none) => []

/-- Pull loop of Go Filter (src/operator/filtering.go:13), inline mode. -/
def filterLoop {T E : Type} [Inhabited T] (predicate : T → Nat → Bool × Option E) :
    List (trx.Result T E) → Nat → List (trx.Result T E)
  | [], _ => []
  | v :: rest, i => filterElem predicate v i ++ filterLoop predicate rest (i + 1)

/-- Go Filter (src/operator/filtering.go:6), inline mode. -/
def Filter {T E : Type} [Inhabited T] (source : List (trx.Result T E))
    (predicate : T → Nat → Bool × Option E) : List (trx.Result T E) :=
  filterLoop predicate source 0

/-- Loop of Go Take (src/operator/transformation.go:272): runs while
count < n; a closed source ends the stage; a source Failure is forwarded
and the stage returns at once without consuming more elements; a Success
is re-emitted and counted.  The remaining budget n - count is the fuel. -/
def takeLoop {T E : Type} [Inhabited T] :
    List (trx.Result T E) → Nat → List (trx.Result T E)
  | _, 0 => []
  | [], _ + 1 => []
  | v :: rest, n + 1 =>
    match v.get with
    | (_, some e) => [trx.Err (some e)]
    | (val, none) => trx.Ok val :: takeLoop rest n

/-- Go Take (src/operator/transformation.go:265).  The Go limit is an int;
a non-positive limit runs zero iterations, so only its non-negative part
matters and the limit is taken as a Nat. -/
def Take {T E : Type} [Inhabited T] (source : List (trx.Result T E)) (n : Nat) :
    List (trx.Result T E) :=
  takeLoop source n

/-- Loop of Go op.BufferWithCount (src/op/transformation.go:129): Success
values are appended to the batch; when the batch length reaches count
(the Go test is len(buffer) >= count on an int count) the batch is
emitted and restarted; a source Failure is forwarded and the goroutine
returns at once, discarding the batch and skipping the final flush; on
source close a non-empty partial batch is emitted. -/
def bufferLoop {T E : Type} (count : Int) :
    List (trx.Result T E) → List T → List (trx.Result (List T) E)
  | [], buffer => if buffer.length > 0 then [trx.Ok buffer] else []
  | v :: rest, buffer =>
    match v.get with
    | (_, some e) => [trx.Err (some e)]
    | (value, none) =>
      let buffer' := buffer ++ [value]
      if (buffer'.length : Int) ≥ count then
        trx.Ok buffer' :: bufferLoop count rest []
      else
        bufferLoop count rest buffer'

/-- Go op.BufferWithCount (src/op/transformation.go:120).  The count is
kept as an Int because the Go parameter is an int with no validation. -/
def BufferWithCount {T E : Type} (source : List (trx.Result T E)) (count : Int) :
    List (trx.Result (List T) E) :=
  bufferLoop count source []

/-- Pure mirror of bufferLoop on an all-success source: the sequence of
batches it emits, including the final partial batch. -/
def chunksAux {α : Type} (count : Int) : List α → List α → List (List α)
  | [], buffer => if buffer.length > 0 then [buffer] else []
  | a :: rest, buffer =>
    let buffer' := buffer ++ [a]
    if (buffer'.length : Int) ≥ count then
      buffer' :: chunksAux count rest []
    else
      chunksAux count rest buffer'

/-- Pure mirror of bufferLoop restricted to the batches completed by the
count trigger: what bufferLoop has already emitted when the source
suffix after the listed successes is reached (no final flush). -/
def chunksComplete {α : Type} (count : Int) : List α → List α → List (List α)
  | [], _ => []
  | a :: rest, buffer =>
    let buffer' := buffer ++ [a]
    if (buffer'.length : Int) ≥ count then
      buffer' :: chunksComplete count rest []
    else
      chunksComplete count rest buffer'

/-- State of a timed buffering loop: the current batch and the absolute
time at which the ticker next fires (time.NewTicker(d) at time 0 first
fires at d; Reset(d) at time t moves the next firing to t + d). -/
structure BufState (T : Type) where
  buffer : List T
  nextFire : Nat
deriving DecidableEq

/-- The ticker branch of the select loop (src/op/transformation.go:208
and 286): fire every tick due up to time t.  Only the first due tick can
emit, because the batch is emptied and no element arrives before t; the
deadline then jumps to the first multiple of the period past t. -/
def advanceTicks {T E : Type} (d : Nat) (st : BufState T) (t : Nat) :
    List (trx.Result (List T) E) × BufState T :=
  if st.nextFire ≤ t then
    ((if st.buffer.length > 0 then [trx.Ok st.buffer] else []),
     ⟨[], st.nextFire + d * ((t - st.nextFire) / d + 1)⟩)
  else
    ([], st)

/-- Select loop of Go op.BufferWithTime (src/op/transformation.go:203)
over time-stamped arrivals, closing at closeTime.  On a count flush the
ticker is Reset (src/op/transformation.go:229): the next firing becomes
t + d.  A source Failure is forwarded and the goroutine returns at once,
discarding the batch.  On close, due ticks fire and then a non-empty
batch is emitted. -/
def bwtRun {T E : Type} (d maxSize closeTime : Nat) :
    List (Nat × trx.Result T E) → BufState T → List (trx.Result (List T) E)
  | [], st =>
    let A := advanceTicks (E := E) d st closeTime
    A.1 ++ (if A.2.buffer.length > 0 then [trx.Ok A.2.buffer] else [])
  | (t, v) :: rest, st =>
    let A := advanceTicks (E := E) d st t
    match v.get with
    | (_, some e) => A.1 ++ [trx.Err (some e)]
    | (value, none) =>
      let buffer' := A.2.buffer ++ [value]
      if 0 < maxSize ∧ maxSize ≤ buffer'.length then
        A.1 ++ (trx.Ok buffer' :: bwtRun d maxSize closeTime rest ⟨[], t + d⟩)
      else
        A.1 ++ bwtRun d maxSize closeTime rest ⟨buffer', A.2.nextFire⟩

/-- Go op.BufferWithTime (src/op/transformation.go:190): the loop starts
at time 0 with an empty batch and the ticker first due at d. -/
def BufferWithTime {T E : Type} (d maxSize : Nat)
    (arrivals : List (Nat × trx.Result T E)) (closeTime : Nat) :
    List (trx.Result (List T) E) :=
  bwtRun d maxSize closeTime arrivals ⟨[], d⟩

/-- Select loop of Go op.BufferWithTimeOrCount
(src/op/transformation.go:281): identical to bwtRun except that the
count flush (src/op/transformation.go:304) does NOT reset the ticker —
the recursive state keeps the pending deadline. -/
def btocRun {T E : Type} (d count closeTime : Nat) :
    List (Nat × trx.Result T E) → BufState T → List (trx.Result (List T) E)
  | [], st =>
    let A := advanceTicks (E := E) d st closeTime
    A.1 ++ (if A.2.buffer.length > 0 then [trx.Ok A.2.buffer] else [])
  | (t, v) :: rest, st =>
    let A := advanceTicks (E := E) d st t
    match v.get with
    | (_, some e) => A.1 ++ [trx.Err (some e)]
    | (value, none) =>
      let buffer' := A.2.buffer ++ [value]
      if 0 < count ∧ count ≤ buffer'.length then
        A.1 ++ (trx.Ok buffer' :: btocRun d count closeTime rest ⟨[], A.2.nextFire⟩)
      else
        A.1 ++ btocRun d count closeTime rest ⟨buffer', A.2.nextFire⟩

/-- Go op.BufferWithTimeOrCount (src/op/transformation.go:268). -/
def BufferWithTimeOrCount {T E : Type} (d count : Nat)
    (arrivals : List (Nat × trx.Result T E)) (closeTime : Nat) :
    List (trx.Result (List T) E) :=
  btocRun d count closeTime arrivals ⟨[], d⟩

/-- Modelled from the spec: release step of the ordered pool.  The pool
in src/unnamed/part_006 (newPool with serialize) delegates to the
external conc/stream library, absent from the repository; per spec
section 4.1 a finished task buffers its callback until every
earlier-submitted task has released its effect.  Starting from the next
index awaiting release, release consecutive indices as long as they have
finished; the fuel bounds the walk and is always taken larger than the
task count. -/
def orderedStep (finished : List Nat) : Nat → Nat → List Nat → Nat × List Nat
  | next, 0, acc => (next, acc)
  | next, fuel + 1, acc =>
    if next ∈ finished then
      orderedStep finished (next + 1) fuel (acc ++ [next])
    else
      (next, acc)

/-- Modelled from the spec: the ordered pool processes task-completion
events in schedule order; each completion marks its task finished and
releases every consecutive ready callback.  The accumulator records the
order in which task effects reach the shared output. -/
def orderedRun (n : Nat) : List Nat → List Nat → Nat → List Nat → List Nat
  | [], _, _, acc => acc
  | j :: sch, finished, next, acc =>
    let p := orderedStep (j :: finished) next (n + 1) acc
    orderedRun n sch (j :: finished) p.1 p.2

/-- Modelled from the spec: the order in which the effects of n submitted
tasks reach the output when the tasks finish in schedule order sch. -/
def orderedEmissions (n : Nat) (sch : List Nat) : List Nat :=
  orderedRun n sch [] 0 []

/-- Modelled from the spec: the output stream produced by the ordered
pool when task i would emit the list tasks[i], under completion
schedule sch. -/
def orderedOutput {α : Type} (tasks : List (List α)) (sch : List Nat) : List α :=
  ((orderedEmissions tasks.length sch).filterMap (fun i => tasks[i]?)).flatten

/-- The tasks Map submits: task i computes mapElem for source element i
(src/op/transformation.go:65) and its callback emits that one result. -/
def mapTasks {T U E : Type} [Inhabited U] (mapper : T → Nat → U × Option E)
    (source : List (trx.Result T E)) : List (List (trx.Result U E)) :=
  source.enum.map (fun x => [mapElem mapper x.2 x.1])

/-- The tasks Filter submits: task i runs filterElem for source element i
(src/operator/filtering.go:26) and emits its zero or one results. -/
def filterTasks {T E : Type} [Inhabited T] (predicate : T → Nat → Bool × Option E)
    (source : List (trx.Result T E)) : List (List (trx.Result T E)) :=
  source.enum.map (fun x => filterElem predicate x.2 x.1)

theorem bufferLoop_nil_eq {T E : Type} (k : Int) (buffer : List T) :
    bufferLoop (E := E) k [] buffer = if 0 < buffer.length then [trx.Ok buffer] else [] := by
  rw [bufferLoop]

theorem bufferLoop_ok_cons {T E : Type} (k : Int) (a : T)
    (rest : List (trx.Result T E)) (buffer : List T) :
    bufferLoop k (trx.Ok a :: rest) buffer =
      if k ≤ (buffer.length : Int) + 1 then trx.Ok (buffer ++ [a]) :: bufferLoop k rest []
      else bufferLoop k rest (buffer ++ [a]) := by
  rw [bufferLoop]
  simp [trx.Result.get, trx.Ok]

theorem bufferLoop_err_cons {T E : Type} (k : Int) (e : E) (v : trx.Result T E)
    (rest : List (trx.Result T E)) (buffer : List T) (h : v.err = some e) :
    bufferLoop k (v :: rest) buffer = [trx.Err (some e)] := by
  rcases v with ⟨vv, verr⟩
  simp only [trx.Result.err] at h
  subst h
  rw [bufferLoop]
  simp [trx.Result.get, trx.Err]

theorem chunksAux_nil_eq {T : Type} (k : Int) (buffer : List T) :
    chunksAux k [] buffer = if 0 < buffer.length then [buffer] else [] := by
  rw [chunksAux]

theorem chunksAux_cons {T : Type} (k : Int) (a : T) (l buffer : List T) :
    chunksAux k (a :: l) buffer =
      if k ≤ (buffer.length : Int) + 1 then (buffer ++ [a]) :: chunksAux k l []
      else chunksAux k l (buffer ++ [a]) := by
  rw [chunksAux]
  simp

theorem chunksComplete_cons {T : Type} (k : Int) (a : T) (l buffer : List T) :
    chunksComplete k (a :: l) buffer =
      if k ≤ (buffer.length : Int) + 1 then (buffer ++ [a]) :: chunksComplete k l []
      else chunksComplete k l (buffer ++ [a]) := by
  rw [chunksComplete]
  simp

theorem takeLoop_ok_cons {T E : Type} [Inhabited T] (a : T)
    (rest : List (trx.Result T E)) (n : Nat) :
    takeLoop (trx.Ok a :: rest) (n + 1) = trx.Ok a :: takeLoop rest n := by
  rw [takeLoop]
  simp [trx.Result.get, trx.Ok]

theorem takeLoop_err_cons {T E : Type} [Inhabited T] (e : E) (v : trx.Result T E)
    (rest : List (trx.Result T E)) (n : Nat) (h : v.err = some e) :
    takeLoop (v :: rest) (n + 1) = [trx.Err (some e)] := by
  rcases v with ⟨vv, verr⟩
  simp only [trx.Result.err] at h
  subst h
  rw [takeLoop]
  simp [trx.Result.get, trx.Err]

theorem mapElem_src_err {T U E : Type} [Inhabited U] (f : T → Nat → U × Option E)
    (v : trx.Result T E) (i : Nat) (e : E) (h : v.err = some e) :
    mapElem f v i = trx.Err (some e) := by
  rcases v with ⟨vv, verr⟩
  simp only [trx.Result.err] at h
  subst h
  rfl

theorem mapElem_f_err {T U E : Type} [Inhabited U] (f : T → Nat → U × Option E)
    (a : T) (i : Nat) (e : E) (h : (f a i).2 = some e) :
    mapElem f (trx.Ok a) i = trx.Err (some e) := by
  unfold mapElem
  simp only [trx.ok_get]
  rcases hf : f a i with ⟨u, oe⟩
  rw [hf] at h
  simp at h
  subst h
  rfl

theorem filterElem_src_err {T E : Type} [Inhabited T] (p : T → Nat → Bool × Option E)
    (v : trx.Result T E) (i : Nat) (e : E) (h : v.err = some e) :
    filterElem p v i = [trx.Err (some e)] := by
  rcases v with ⟨vv, verr⟩
  simp only [trx.Result.err] at h
  subst h
  rfl

theorem filterElem_p_err {T E : Type} [Inhabited T] (p : T → Nat → Bool × Option E)
    (a : T) (i : Nat) (e : E) (h : (p a i).2 = some e) :
    filterElem p (trx.Ok a) i = [trx.Err (some e)] := by
  unfold filterElem
  simp only [trx.ok_get]
  rcases hp : p a i with ⟨b, oe⟩
  rw [hp] at h
  simp at h
  subst h
  cases b <;> rfl

theorem takeLoop_map_ok {T E : Type} [Inhabited T] :
    ∀ (l : List T) (n : Nat),
      takeLoop (E := E) (l.map trx.Ok) n = (l.take n).map trx.Ok := by
  intro l
  induction l with
  | nil => intro n; cases n <;> simp [takeLoop]
  | cons a l ih =>
    intro n
    cases n with
    | zero => simp [takeLoop]
    | succ n => simp [takeLoop_ok_cons, ih n]

theorem takeLoop_err {T E : Type} [Inhabited T] (e : E) (rest : List (trx.Result T E)) :
    ∀ (pre : List T) (n : Nat), pre.length < n →
      takeLoop (pre.map trx.Ok ++ trx.Err (some e) :: rest) n
        = pre.map trx.Ok ++ [trx.Err (some e)] := by
  intro pre
  induction pre with
  | nil =>
    intro n hn
    have hn0 : 0 < n := by simpa using hn
    obtain ⟨m, rfl⟩ : ∃ m, n = m + 1 := ⟨n - 1, by omega⟩
    rw [List.map_nil, List.nil_append, takeLoop_err_cons e _ rest m (by simp [trx.Err]),
      List.nil_append]
  | cons a pre ih =>
    intro n hn
    obtain ⟨m, rfl⟩ : ∃ m, n = m + 1 := ⟨n - 1, by omega⟩
    have hm : pre.length < m := by simpa using hn
    simp only [List.map_cons, List.cons_append, takeLoop_ok_cons, ih m hm]

theorem mapLoop_length {T U E : Type} [Inhabited U] (f : T → Nat → U × Option E) :
    ∀ (l : List (trx.Result T E)) (n : Nat), (mapLoop f l n).length = l.length := by
  intro l
  induction l with
  | nil => intro n; simp [mapLoop]
  | cons v l ih => intro n; simp [mapLoop, ih (n + 1)]

theorem mapLoop_getElem {T U E : Type} [Inhabited U] (f : T → Nat → U × Option E) :
    ∀ (l : List (trx.Result T E)) (n i : Nat),
      (mapLoop f l n)[i]? = (l[i]?).map (fun v => mapElem f v (n + i)) := by
  intro l
  induction l with
  | nil => intro n i; simp [mapLoop]
  | cons v l ih =>
    intro n i
    cases i with
    | zero => simp [mapLoop]
    | succ i =>
      have harith : n + (i + 1) = (n + 1) + i := by omega
      rw [mapLoop, List.getElem?_cons_succ, ih (n + 1) i, harith,
        List.getElem?_cons_succ]

theorem mapLoop_enumFrom {T U E : Type} [Inhabited U] (f : T → Nat → U × Option E) :
    ∀ (l : List (trx.Result T E)) (n : Nat),
      mapLoop f l n = (l.enumFrom n).map (fun x => mapElem f x.2 x.1) := by
  intro l
  induction l with
  | nil => intro n; simp [mapLoop]
  | cons v l ih => intro n; simp [mapLoop, List.enumFrom, ih (n + 1)]

theorem filterLoop_enumFrom {T E : Type} [Inhabited T] (p : T → Nat → Bool × Option E) :
    ∀ (l : List (trx.Result T E)) (n : Nat),
      filterLoop p l n = ((l.enumFrom n).map (fun x => filterElem p x.2 x.1)).flatten := by
  intro l
  induction l with
  | nil => intro n; simp [filterLoop]
  | cons v l ih => intro n; simp [filterLoop, List.enumFrom, ih (n + 1)]

theorem bufferLoop_map_ok {T E : Type} (k : Int) :
    ∀ (l : List T) (buffer : List T),
      bufferLoop (E := E) k (l.map trx.Ok) buffer = (chunksAux k l buffer).map trx.Ok := by
  intro l
  induction l with
  | nil =>
    intro buffer
    rw [List.map_nil, bufferLoop_nil_eq, chunksAux_nil_eq]
    by_cases h : 0 < buffer.length
    · rw [if_pos h, if_pos h, List.map_cons, List.map_nil]
    · rw [if_neg h, if_neg h, List.map_nil]
  | cons a l ih =>
    intro buffer
    rw [List.map_cons, bufferLoop_ok_cons, chunksAux_cons]
    by_cases h : k ≤ (buffer.length : Int) + 1
    · rw [if_pos h, if_pos h, List.map_cons, ih []]
    · rw [if_neg h, if_neg h, ih (buffer ++ [a])]

theorem bufferLoop_err {T E : Type} [Inhabited T] (k : Int) (e : E)
    (rest : List (trx.Result T E)) :
    ∀ (l : List T) (buffer : List T),
      bufferLoop k (l.map trx.Ok ++ trx.Err (some e) :: rest) buffer
        = (chunksComplete k l buffer).map trx.Ok ++ [trx.Err (some e)] := by
  intro l
  induction l with
  | nil =>
    intro buffer
    rw [List.map_nil, List.nil_append,
      bufferLoop_err_cons k e _ rest buffer (by simp [trx.Err]), chunksComplete]
    simp
  | cons a l ih =>
    intro buffer
    rw [List.map_cons, List.cons_append, bufferLoop_ok_cons, chunksComplete_cons]
    by_cases h : k ≤ (buffer.length : Int) + 1
    · rw [if_pos h, if_pos h, ih [], List.map_cons, List.cons_append]
    · rw [if_neg h, if_neg h, ih (buffer ++ [a])]

theorem chunksComplete_eq_nil {T : Type} (k : Int) :
    ∀ (l : List T) (buffer : List T), (buffer.length : Int) + (l.length : Int) < k →
      chunksComplete k l buffer = [] := by
  intro l
  induction l with
  | nil => intro buffer _; rfl
  | cons a l ih =>
    intro buffer h
    simp only [List.length_cons] at h
    push_cast at h
    rw [chunksComplete_cons, if_neg (by omega)]
    apply ih
    simp only [List.length_append, List.length_cons, List.length_nil]
    push_cast
    omega

theorem chunksAux_flatten {T : Type} (k : Nat) (hk : 1 ≤ k) :
    ∀ (l : List T) (buffer : List T), buffer.length < k →
      (chunksAux (k : Int) l buffer).flatten = buffer ++ l := by
  intro l
  induction l with
  | nil =>
    intro buffer _
    rw [chunksAux_nil_eq]
    by_cases h : 0 < buffer.length
    · rw [if_pos h]
      simp
    · have hb0 : buffer = [] := List.length_eq_zero.mp (by omega)
      rw [if_neg h, hb0]
      simp
  | cons a l ih =>
    intro buffer hb
    rw [chunksAux_cons]
    by_cases h : (k : Int) ≤ (buffer.length : Int) + 1
    · rw [if_pos h, List.flatten_cons, ih [] (by simp only [List.length_nil]; omega)]
      simp
    · have hb2 : (buffer ++ [a]).length < k := by
        simp only [List.length_append, List.length_cons, List.length_nil]
        omega
      rw [if_neg h, ih (buffer ++ [a]) hb2]
      simp

theorem chunksAux_length {T : Type} (k : Nat) (hk : 1 ≤ k) :
    ∀ (l : List T) (buffer : List T), buffer.length < k →
      (chunksAux (k : Int) l buffer).length = (buffer.length + l.length + k - 1) / k := by
  intro l
  induction l with
  | nil =>
    intro buffer hb
    rw [chunksAux_nil_eq]
    by_cases h : 0 < buffer.length
    · have hdiv : (buffer.length + ([] : List T).length + k - 1) / k = 1 := by
        have harith : buffer.length + ([] : List T).length + k - 1 = (buffer.length - 1) + k := by
          simp only [List.length_nil]
          omega
        rw [harith, Nat.add_div_right _ (by omega : 0 < k), Nat.div_eq_of_lt (by omega)]
      rw [if_pos h, hdiv]
      rfl
    · have hdiv : (buffer.length + ([] : List T).length + k - 1) / k = 0 := by
        apply Nat.div_eq_of_lt
        simp only [List.length_nil]
        omega
      rw [if_neg h, hdiv]
      rfl
  | cons a l ih =>
    intro buffer hb
    rw [chunksAux_cons]
    by_cases h : (k : Int) ≤ (buffer.length : Int) + 1
    · have hih := ih [] (by simp only [List.length_nil]; omega)
      simp only [List.length_nil, Nat.zero_add] at hih
      have hdiv : buffer.length + (a :: l).length + k - 1 = (l.length + k - 1) + k := by
        simp only [List.length_cons]
        omega
      rw [if_pos h, List.length_cons, hih, hdiv, Nat.add_div_right _ (by omega : 0 < k)]
    · have hb2 : (buffer ++ [a]).length < k := by
        simp only [List.length_append, List.length_cons, List.length_nil]
        omega
      rw [if_neg h, ih (buffer ++ [a]) hb2]
      congr 1
      simp only [List.length_append, List.length_cons, List.length_nil]
      omega

theorem chunksAux_sizes {T : Type} (k : Nat) (hk : 1 ≤ k) :
    ∀ (l : List T) (buffer : List T), buffer.length < k → 0 < buffer.length + l.length →
      ∃ full last, chunksAux (k : Int) l buffer = full ++ [last] ∧
        (∀ c ∈ full, c.length = k) ∧
        last.length = (if (buffer.length + l.length) % k = 0 then k
          else (buffer.length + l.length) % k) := by
  intro l
  induction l with
  | nil =>
    intro buffer hb hpos
    have h : 0 < buffer.length := by simpa using hpos
    refine ⟨[], buffer, ?_, by simp, ?_⟩
    · rw [chunksAux_nil_eq, if_pos h]
      rfl
    · have hmod : (buffer.length + ([] : List T).length) % k = buffer.length := by
        simp only [List.length_nil, Nat.add_zero]
        exact Nat.mod_eq_of_lt (by omega)
      rw [hmod, if_neg (by omega)]
  | cons a l ih =>
    intro buffer hb hpos
    by_cases h : (k : Int) ≤ (buffer.length : Int) + 1
    · have hlen : buffer.length + 1 = k := by omega
      cases l with
      | nil =>
        refine ⟨[], buffer ++ [a], ?_, by simp, ?_⟩
        · rw [chunksAux_cons, if_pos h, chunksAux_nil_eq, if_neg (by simp)]
          rfl
        · have hmod : (buffer.length + (a :: ([] : List T)).length) % k = 0 := by
            simp only [List.length_cons, List.length_nil]
            have harith : buffer.length + (0 + 1) = k := by omega
            rw [harith]
            exact Nat.mod_self k
          rw [hmod, if_pos rfl]
          simp only [List.length_append, List.length_cons, List.length_nil]
          omega
      | cons b l2 =>
        obtain ⟨full, last, heq, hfull, hlast⟩ :=
          ih [] (by simp only [List.length_nil]; omega) (by simp)
        refine ⟨(buffer ++ [a]) :: full, last, ?_, ?_, ?_⟩
        · rw [chunksAux_cons, if_pos h, heq]
          rfl
        · intro c hc
          rcases List.mem_cons.mp hc with hc | hc
          · subst hc
            simp only [List.length_append, List.length_cons, List.length_nil]
            omega
          · exact hfull c hc
        · have hmodeq : (buffer.length + (a :: b :: l2).length) % k = (b :: l2).length % k := by
            have h1 : buffer.length + (a :: b :: l2).length = (b :: l2).length + k := by
              simp only [List.length_cons]
              omega
            rw [h1, Nat.add_mod_right]
          rw [hmodeq]
          simpa using hlast
    · have hb2 : (buffer ++ [a]).length < k := by
        simp only [List.length_append, List.length_cons, List.length_nil]
        omega
      obtain ⟨full, last, heq, hfull, hlast⟩ :=
        ih (buffer ++ [a]) hb2
          (by simp only [List.length_append, List.length_cons, List.length_nil]; omega)
      refine ⟨full, last, ?_, hfull, ?_⟩
      · rw [chunksAux_cons, if_neg h, heq]
      · have h2 : buffer.length + (a :: l).length = (buffer ++ [a]).length + l.length := by
          simp only [List.length_append, List.length_cons, List.length_nil]
          omega
        rw [h2]
        exact hlast

theorem bufferLoop_singletons {T E : Type} (k : Int) (hk : k ≤ 0) :
    ∀ (l : List T), bufferLoop (E := E) k (l.map trx.Ok) [] = l.map (fun a => trx.Ok [a]) := by
  intro l
  induction l with
  | nil => rfl
  | cons a l ih =>
    rw [List.map_cons, bufferLoop_ok_cons,
      if_pos (by simp only [List.length_nil]; omega), ih, List.map_cons]
    rfl

theorem orderedStep_spec (n : Nat) :
    ∀ (fuel : Nat) (finished : List Nat) (next : Nat),
      (∀ i ∈ finished, i < n) → n ≤ fuel + next →
      ∃ next2, orderedStep finished next fuel (List.range next) = (next2, List.range next2) ∧
        next ≤ next2 ∧ (∀ i, next ≤ i → i < next2 → i ∈ finished) ∧ next2 ∉ finished := by
  intro fuel
  induction fuel with
  | zero =>
    intro finished next hfin hfuel
    refine ⟨next, rfl, le_refl next, by omega, ?_⟩
    intro hmem
    exact absurd (hfin next hmem) (by omega)
  | succ fuel ih =>
    intro finished next hfin hfuel
    by_cases h : next ∈ finished
    · have hrec := ih finished (next + 1) hfin (by omega)
      obtain ⟨next2, heq, hle, hint, hnot⟩ := hrec
      refine ⟨next2, ?_, by omega, ?_, hnot⟩
      · rw [orderedStep, if_pos h, ← List.range_succ]
        exact heq
      · intro i hi1 hi2
        rcases Nat.eq_or_lt_of_le hi1 with hi | hi
        · subst hi
          exact h
        · exact hint i hi hi2
    · refine ⟨next, ?_, le_refl next, by omega, h⟩
      rw [orderedStep, if_neg h]

theorem orderedRun_perm (n : Nat) :
    ∀ (sch finished : List Nat) (next : Nat),
      (finished ++ sch).Perm (List.range n) →
      (∀ i, i < next → i ∈ finished) →
      next ∉ finished →
      orderedRun n sch finished next (List.range next) = List.range n := by
  intro sch
  induction sch with
  | nil =>
    intro finished next hperm hcov hnot
    have hfin : finished.Perm (List.range n) := by simpa using hperm
    have hlt : ∀ i, i < next → i < n := by
      intro i hi
      have := hfin.mem_iff.mp (hcov i hi)
      simpa using this
    have hnext : next = n := by
      by_contra hne
      rcases Nat.lt_or_ge next n with hlt2 | hge
      · exact hnot (hfin.mem_iff.mpr (by simp [hlt2]))
      · have : n < next := by omega
        have := hlt n this
        omega
    rw [orderedRun, hnext]
  | cons j sch ih =>
    intro finished next hperm hcov hnot
    have hperm2 : ((j :: finished) ++ sch).Perm (List.range n) := by
      refine List.Perm.trans ?_ hperm
      have hmid : (finished ++ j :: sch).Perm (j :: (finished ++ sch)) := List.perm_middle
      simpa using hmid.symm
    have hfin2 : ∀ i ∈ j :: finished, i < n := by
      intro i hi
      have hmem : i ∈ List.range n :=
        hperm2.mem_iff.mp (List.mem_append.mpr (Or.inl hi))
      simpa using hmem
    obtain ⟨next2, heq, hle, hint, hnot2⟩ :=
      orderedStep_spec n (n + 1) (j :: finished) next hfin2 (by omega)
    rw [orderedRun]
    simp only [heq]
    apply ih (j :: finished) next2 hperm2
    · intro i hi
      rcases Nat.lt_or_ge i next with hlt2 | hge
      · exact List.mem_cons_of_mem j (hcov i hlt2)
      · exact hint i hge hi
    · exact hnot2

theorem orderedEmissions_perm (n : Nat) (sch : List Nat)
    (hperm : sch.Perm (List.range n)) :
    orderedEmissions n sch = List.range n := by
  have := orderedRun_perm n sch [] 0 (by simpa using hperm) (by omega) (by simp)
  simpa [orderedEmissions] using this

theorem filterMap_getElem_range {α : Type} :
    ∀ (l : List α), (List.range l.length).filterMap (fun i => l[i]?) = l := by
  intro l
  induction l with
  | nil => rfl
  | cons a l ih =>
    rw [List.length_cons, List.range_succ_eq_map, List.filterMap_cons, List.filterMap_map]
    simp only [List.getElem?_cons_zero]
    have hfun : ((fun i => (a :: l)[i]?) ∘ Nat.succ) = (fun i : Nat => l[i]?) := by
      funext i
      simp
    rw [hfun, ih]

theorem flatten_map_singleton {α β : Type} (g : α → β) :
    ∀ (l : List α), (l.map (fun a => [g a])).flatten = l.map g := by
  intro l
  induction l with
  | nil => rfl
  | cons a l ih => simp [ih]

end op

/-- C1: the spec (and the Go doc comment of Timer) promise that a
cancellation handle supplied via the options cancels the timer: cancelled
before d means close with no emission.  The code discards its options
(prepareResources is called with no arguments), so a handle cancelled at
time 0 has no effect and Timer 10 still emits Ok 0 after the full
duration, diverging from the documented behavior timerSpecified. -/
theorem claim1_timer_ignores_cancellation :
    op.Timer (E := Unit) 10 [op.OptionArg.withContext (some 0)] = [trx.Ok 0] ∧
    op.timerSpecified (E := Unit) 10 [op.OptionArg.withContext (some 0)] = [] ∧
    op.Timer (E := Unit) 10 [op.OptionArg.withContext (some 0)]
      ≠ op.timerSpecified (E := Unit) 10 [op.OptionArg.withContext (some 0)] :=
  ⟨rfl, rfl, by decide⟩

/-- C2: a count-triggered flush in BufferWithTime resets the ticker (the
recursive state carries nextFire = t + d, d after the flush), while the
same flush in BufferWithTimeOrCount leaves the ticker phase untouched
(the state keeps the pending deadline).  On the identical arrival trace
(3,1) (5,2) (7,3) (12,4) with d = 10 and size 2 the two operators
consequently batch differently: BufferWithTime emits [1,2] and [3,4]
because its reset pushed the next firing past 12, BufferWithTimeOrCount
keeps the original phase, its tick at 10 flushes [3], and [4] remains
for the final flush. -/
theorem claim2_count_flush_timer_phase {T E : Type} (d maxSize count t closeTime : Nat)
    (v : trx.Result T E) (rest : List (Nat × trx.Result T E)) (st : op.BufState T)
    (hv : v.err = none)
    (hm : 0 < maxSize)
    (hflush : maxSize ≤ ((op.advanceTicks (E := E) d st t).2.buffer ++ [v.v]).length)
    (hc : 0 < count)
    (hcf : count ≤ ((op.advanceTicks (E := E) d st t).2.buffer ++ [v.v]).length) :
    op.bwtRun d maxSize closeTime ((t, v) :: rest) st
      = (op.advanceTicks (E := E) d st t).1
        ++ (trx.Ok ((op.advanceTicks (E := E) d st t).2.buffer ++ [v.v])
          :: op.bwtRun d maxSize closeTime rest ⟨[], t + d⟩) ∧
    op.btocRun d count closeTime ((t, v) :: rest) st
      = (op.advanceTicks (E := E) d st t).1
        ++ (trx.Ok ((op.advanceTicks (E := E) d st t).2.buffer ++ [v.v])
          :: op.btocRun d count closeTime rest
              ⟨[], (op.advanceTicks (E := E) d st t).2.nextFire⟩) ∧
    op.BufferWithTime (E := Unit) 10 2
        [(3, trx.Ok 1), (5, trx.Ok 2), (7, trx.Ok 3), (12, trx.Ok 4)] 13
      = [trx.Ok [1, 2], trx.Ok [3, 4]] ∧
    op.BufferWithTimeOrCount (E := Unit) 10 2
        [(3, trx.Ok 1), (5, trx.Ok 2), (7, trx.Ok 3), (12, trx.Ok 4)] 13
      = [trx.Ok [1, 2], trx.Ok [3], trx.Ok [4]] ∧
    op.BufferWithTime (E := Unit) 10 2
        [(3, trx.Ok 1), (5, trx.Ok 2), (7, trx.Ok 3), (12, trx.Ok 4)] 13
      ≠ op.BufferWithTimeOrCount (E := Unit) 10 2
        [(3, trx.Ok 1), (5, trx.Ok 2), (7, trx.Ok 3), (12, trx.Ok 4)] 13 := by
  rcases v with ⟨vv, verr⟩
  simp only [trx.Result.err] at hv
  subst hv
  have hf2 : maxSize ≤ ((op.advanceTicks (E := E) d st t).2.buffer ++ [vv]).length := hflush
  have hcf2 : count ≤ ((op.advanceTicks (E := E) d st t).2.buffer ++ [vv]).length := hcf
  refine ⟨?_, ?_, by decide, by decide, by decide⟩
  · rw [op.bwtRun]
    simp only [trx.Result.get]
    rw [if_pos ⟨hm, hf2⟩]
  · rw [op.btocRun]
    simp only [trx.Result.get]
    rw [if_pos ⟨hc, hcf2⟩]

theorem claim2_witness :
    ((trx.Ok (E := Unit) (7 : Nat)).err = none ∧ (0 : Nat) < 2 ∧
      2 ≤ ((op.advanceTicks (E := Unit) 10 (⟨[9], 100⟩ : op.BufState Nat) 1).2.buffer
        ++ [(trx.Ok (E := Unit) (7 : Nat)).v]).length) ∧
    (op.bwtRun 10 2 50 [(1, trx.Ok (E := Unit) (7 : Nat))] ⟨[9], 100⟩
      = (op.advanceTicks (E := Unit) 10 (⟨[9], 100⟩ : op.BufState Nat) 1).1
        ++ (trx.Ok ((op.advanceTicks (E := Unit) 10 (⟨[9], 100⟩ : op.BufState Nat) 1).2.buffer
            ++ [(trx.Ok (E := Unit) (7 : Nat)).v])
          :: op.bwtRun 10 2 50 [] ⟨[], 1 + 10⟩)) ∧
    (op.btocRun 10 2 50 [(1, trx.Ok (E := Unit) (7 : Nat))] ⟨[9], 100⟩
      = (op.advanceTicks (E := Unit) 10 (⟨[9], 100⟩ : op.BufState Nat) 1).1
        ++ (trx.Ok ((op.advanceTicks (E := Unit) 10 (⟨[9], 100⟩ : op.BufState Nat) 1).2.buffer
            ++ [(trx.Ok (E := Unit) (7 : Nat)).v])
          :: op.btocRun 10 2 50 []
              ⟨[], (op.advanceTicks (E := Unit) 10 (⟨[9], 100⟩ : op.BufState Nat) 1).2.nextFire⟩)) := by
  have h := claim2_count_flush_timer_phase (T := Nat) (E := Unit) 10 2 2 1 50
    (trx.Ok 7) [] ⟨[9], 100⟩ rfl (by decide) (by decide) (by decide) (by decide)
  exact ⟨⟨rfl, by decide, by decide⟩, h.1, h.2.1⟩

/-- C3: Map and Filter are resilient.  Map keeps one output per source
element (length preserved and output i determined by source element i
alone), a source Failure becomes exactly one downstream Failure, a
mapper error likewise; Filter is the per-element concatenation of
filterElem over the indexed source, where a source Failure and a
predicate error each contribute exactly one Failure.  Later elements are
processed regardless of earlier failures. -/
theorem claim3_map_filter_resilient {T U E : Type} [Inhabited T] [Inhabited U]
    (source : List (trx.Result T E)) (f : T → Nat → U × Option E)
    (p : T → Nat → Bool × Option E) :
    (op.Map source f).length = source.length ∧
    (∀ i : Nat, (op.Map source f)[i]? = (source[i]?).map (fun v => op.mapElem f v i)) ∧
    (∀ (v : trx.Result T E) (i : Nat) (e : E), v.err = some e →
      op.mapElem f v i = trx.Err (some e)) ∧
    (∀ (a : T) (i : Nat) (e : E), (f a i).2 = some e →
      op.mapElem f (trx.Ok a) i = trx.Err (some e)) ∧
    op.Filter source p = (source.enum.map (fun x => op.filterElem p x.2 x.1)).flatten ∧
    (∀ (v : trx.Result T E) (i : Nat) (e : E), v.err = some e →
      op.filterElem p v i = [trx.Err (some e)]) ∧
    (∀ (a : T) (i : Nat) (e : E), (p a i).2 = some e →
      op.filterElem p (trx.Ok a) i = [trx.Err (some e)]) := by
  refine ⟨op.mapLoop_length f source 0, ?_,
    fun v i e h => op.mapElem_src_err f v i e h,
    fun a i e h => op.mapElem_f_err f a i e h, ?_,
    fun v i e h => op.filterElem_src_err p v i e h,
    fun a i e h => op.filterElem_p_err p a i e h⟩
  · intro i
    have h := op.mapLoop_getElem f source 0 i
    simpa using h
  · exact op.filterLoop_enumFrom p source 0

theorem claim3_witness :
    op.mapElem (fun (a : Nat) (i : Nat) => (a + i, (none : Option Nat)))
        (trx.Err (some 7)) 1 = trx.Err (some 7) ∧
    op.filterElem (fun (a : Nat) (i : Nat) => (true, (none : Option Nat)))
        (trx.Err (some 7)) 1 = [trx.Err (some 7)] := by
  have h := claim3_map_filter_resilient (T := Nat) (U := Nat) (E := Nat)
    [trx.Ok 5, trx.Err (some 7)] (fun a i => (a + i, none)) (fun a i => (true, none))
  exact ⟨h.2.2.1 (trx.Err (some 7)) 1 7 rfl, h.2.2.2.2.2.1 (trx.Err (some 7)) 1 7 rfl⟩

/-- C4: Take forwards the first min(n, length) successes of an
all-success source unchanged and in order, then closes; and when the
source is k successes followed by a Failure with k < n, it emits exactly
those k successes, then that Failure, and stops without touching the
rest of the source. -/
theorem claim4_take_prefix_and_failure {T E : Type} [Inhabited T]
    (l pre : List T) (n : Nat) (e : E) (rest : List (trx.Result T E))
    (hk : pre.length < n) :
    op.Take (E := E) (l.map trx.Ok) n = (l.take n).map trx.Ok ∧
    (op.Take (E := E) (l.map trx.Ok) n).length = min n l.length ∧
    op.Take (pre.map trx.Ok ++ trx.Err (some e) :: rest) n
      = pre.map trx.Ok ++ [trx.Err (some e)] := by
  refine ⟨op.takeLoop_map_ok l n, ?_, op.takeLoop_err e rest pre n hk⟩
  have h := op.takeLoop_map_ok (E := E) l n
  rw [op.Take, h]
  simp [List.length_take]

theorem claim4_witness :
    ([5] : List Nat).length < 2 ∧
    (op.Take (E := Nat) (([1, 2, 3] : List Nat).map trx.Ok) 2
        = (([1, 2, 3] : List Nat).take 2).map trx.Ok ∧
      (op.Take (E := Nat) (([1, 2, 3] : List Nat).map trx.Ok) 2).length
        = min 2 ([1, 2, 3] : List Nat).length ∧
      op.Take (([5] : List Nat).map trx.Ok ++ trx.Err (some 7) :: [trx.Ok 9]) 2
        = ([5] : List Nat).map trx.Ok ++ [trx.Err (some 7)]) :=
  ⟨by decide, claim4_take_prefix_and_failure [1, 2, 3] [5] 2 7 [trx.Ok 9] (by decide)⟩

/-- C5: BufferWithCount short-circuits on the first source Failure: for
every source of the form successes l, then that Failure, then an
arbitrary unconsumed remainder, the output is exactly the batches
completed by the count trigger followed by the Failure — the partially
accumulated batch is discarded and nothing after the Failure is
consumed.  When l never reaches the count the output is just the
Failure, with no batch at all. -/
theorem claim5_buffer_abort_on_failure {T E : Type} [Inhabited T]
    (l : List T) (e : E) (rest : List (trx.Result T E)) (k : Int) :
    op.BufferWithCount (l.map trx.Ok ++ trx.Err (some e) :: rest) k
      = (op.chunksComplete k l []).map trx.Ok ++ [trx.Err (some e)] ∧
    ((l.length : Int) < k →
      op.BufferWithCount (l.map trx.Ok ++ trx.Err (some e) :: rest) k
        = [trx.Err (some e)]) := by
  have h1 := op.bufferLoop_err k e rest l []
  refine ⟨h1, fun hlt => ?_⟩
  have h2 := op.chunksComplete_eq_nil k l [] (by simpa using hlt)
  rw [h2] at h1
  simpa using h1

theorem claim5_witness :
    (op.BufferWithCount (([1, 2, 3] : List Nat).map trx.Ok
          ++ trx.Err (some 7) :: [trx.Ok 9]) 2
        = (op.chunksComplete 2 ([1, 2, 3] : List Nat) []).map trx.Ok
          ++ [trx.Err (some 7)] ∧
      op.BufferWithCount (([1, 2, 3] : List Nat).map trx.Ok
          ++ trx.Err (some 7) :: [trx.Ok 9]) 2
        = [trx.Ok [1, 2], trx.Err (some 7)]) ∧
    ((([1] : List Nat).length : Int) < 2 ∧
      op.BufferWithCount (([1] : List Nat).map trx.Ok
          ++ trx.Err (some 7) :: [trx.Ok 9]) 2
        = [trx.Err (some 7)]) := by
  have h1 := claim5_buffer_abort_on_failure ([1, 2, 3] : List Nat) (7 : Nat) [trx.Ok 9] 2
  have h2 := claim5_buffer_abort_on_failure ([1] : List Nat) (7 : Nat) [trx.Ok 9] 2
  exact ⟨⟨h1.1, by decide⟩, ⟨by decide, h2.2 (by decide)⟩⟩

/-- C6: under the ordered pool every completion schedule (any permutation
of the task indices, covering any pool size N greater than 1) yields
exactly the inline output for both Map and Filter: effects are released
in submission order, so the output sequence matches the source order. -/
theorem claim6_ordered_pool_matches_inline {T U E : Type} [Inhabited T] [Inhabited U]
    (sch : List Nat) (source : List (trx.Result T E))
    (f : T → Nat → U × Option E) (p : T → Nat → Bool × Option E)
    (hperm : sch.Perm (List.range source.length)) :
    op.orderedOutput (op.mapTasks f source) sch = op.Map source f ∧
    op.orderedOutput (op.filterTasks p source) sch = op.Filter source p := by
  have hlen1 : (op.mapTasks f source).length = source.length := by
    simp [op.mapTasks]
  have hlen2 : (op.filterTasks p source).length = source.length := by
    simp [op.filterTasks]
  constructor
  · rw [op.orderedOutput, hlen1, op.orderedEmissions_perm source.length sch hperm,
      ← hlen1, op.filterMap_getElem_range]
    rw [op.mapTasks, op.flatten_map_singleton]
    exact (op.mapLoop_enumFrom f source 0).symm
  · rw [op.orderedOutput, hlen2, op.orderedEmissions_perm source.length sch hperm,
      ← hlen2, op.filterMap_getElem_range]
    rw [op.filterTasks]
    exact (op.filterLoop_enumFrom p source 0).symm

theorem claim6_witness :
    ([2, 0, 1] : List Nat).Perm
      (List.range ([trx.Ok 1, trx.Err (some 5), trx.Ok 3] : List (trx.Result Nat Nat)).length) ∧
    (op.orderedOutput
        (op.mapTasks (fun (a : Nat) (i : Nat) => (a * 10 + i, (none : Option Nat)))
          [trx.Ok 1, trx.Err (some 5), trx.Ok 3]) [2, 0, 1]
      = op.Map [trx.Ok 1, trx.Err (some 5), trx.Ok 3]
          (fun (a : Nat) (i : Nat) => (a * 10 + i, (none : Option Nat))) ∧
     op.orderedOutput
        (op.filterTasks (fun (a : Nat) (i : Nat) => (decide (a % 2 = 1), (none : Option Nat)))
          [trx.Ok 1, trx.Err (some 5), trx.Ok 3]) [2, 0, 1]
      = op.Filter [trx.Ok 1, trx.Err (some 5), trx.Ok 3]
          (fun (a : Nat) (i : Nat) => (decide (a % 2 = 1), (none : Option Nat)))) :=
  ⟨by decide, claim6_ordered_pool_matches_inline [2, 0, 1]
    [trx.Ok 1, trx.Err (some 5), trx.Ok 3]
    (fun a i => (a * 10 + i, none)) (fun a _ => (decide (a % 2 = 1), none)) (by decide)⟩

/-- C7: Range(start, n) for n greater or equal 0 emits exactly the n
successes start, start+1, ..., start+n-1 in order, then closes; n = 0
gives the empty stream and start ranges over all integers, negatives
included. -/
theorem claim7_range_emits {E : Type} (start : Int) (n : Nat) :
    op.Range (E := E) start n = (List.range n).map (fun j : Nat => trx.Ok (start + (j : Int))) ∧
    (op.Range (E := E) start n).length = n := by
  have h : op.Range (E := E) start n
      = (List.range n).map (fun j : Nat => trx.Ok (start + (j : Int))) :=
    op.rangeLoop_eq (E := E) n start
  refine ⟨h, ?_⟩
  rw [h]
  simp

/-- C9: the error constructor applied to a nil error yields a Result
whose tag is decided only by the stored error: IsOk is true, IsErr is
false, and Unwrap does not panic, returning the zero value of T. -/
theorem claim9_err_nil_result_is_ok (T E : Type) [Inhabited T] :
    (trx.Err (T := T) (E := E) none).isOk = true ∧
    (trx.Err (T := T) (E := E) none).isErr = false ∧
    (trx.Err (T := T) (E := E) none).unwrap = some (default : T) :=
  ⟨rfl, rfl, rfl⟩

/-- C8: for k greater or equal 1, BufferWithCount over Range(0, m) emits
ceil(m/k) = (m + k - 1) / k batches of successes whose concatenation is
the source sequence; every batch before the last has size k and the
last has size m mod k, or k when k divides m (the final partial batch is
emitted at close). -/
theorem claim8_buffer_count_batches (k m : Nat) (hk : 1 ≤ k) :
    ∃ bs : List (List Int),
      op.BufferWithCount (E := Unit) (op.Range 0 (m : Int)) ((k : Nat) : Int) = bs.map trx.Ok ∧
      bs.length = (m + k - 1) / k ∧
      bs.flatten = (List.range m).map (fun j : Nat => (j : Int)) ∧
      (0 < m → ∃ full last, bs = full ++ [last] ∧ (∀ c ∈ full, c.length = k) ∧
        last.length = if m % k = 0 then k else m % k) := by
  set L : List Int := (List.range m).map (fun j : Nat => (j : Int)) with hLdef
  have hL : op.Range (E := Unit) 0 (m : Int) = L.map trx.Ok := by
    have hR := op.rangeLoop_eq (E := Unit) m 0
    show op.rangeLoop 0 (0 + (m : Int)) = _
    rw [hR, hLdef, List.map_map]
    apply List.map_congr_left
    intro j _
    simp
  have hlen : L.length = m := by simp [hLdef]
  refine ⟨op.chunksAux ((k : Nat) : Int) L [], ?_, ?_, ?_, ?_⟩
  · rw [op.BufferWithCount, hL]
    exact op.bufferLoop_map_ok _ L []
  · have h2 := op.chunksAux_length k hk L [] (by simp only [List.length_nil]; omega)
    simpa [hlen] using h2
  · have h3 := op.chunksAux_flatten k hk L [] (by simp only [List.length_nil]; omega)
    simpa using h3
  · intro hm
    have h4 := op.chunksAux_sizes k hk L []
      (by simp only [List.length_nil]; omega)
      (by simp only [List.length_nil, hlen]; omega)
    obtain ⟨full, last, heq, hfull, hlast⟩ := h4
    refine ⟨full, last, heq, hfull, ?_⟩
    rw [hlast]
    simp [hlen]

theorem claim8_witness :
    (1 : Nat) ≤ 2 ∧
    (∃ bs : List (List Int),
      op.BufferWithCount (E := Unit) (op.Range 0 ((5 : Nat) : Int)) (((2 : Nat) : Nat) : Int)
        = bs.map trx.Ok ∧
      bs.length = (5 + 2 - 1) / 2 ∧
      bs.flatten = (List.range 5).map (fun j : Nat => (j : Int)) ∧
      (0 < 5 → ∃ full last, bs = full ++ [last] ∧ (∀ c ∈ full, c.length = 2) ∧
        last.length = if 5 % 2 = 0 then 2 else 5 % 2)) :=
  ⟨by decide, claim8_buffer_count_batches 2 5 (by decide)⟩

/-- C10: with a non-positive count the flush test len(buffer) >= count
holds after every append, so BufferWithCount degrades gracefully: each
source Success is emitted at once as its own single-element batch, in
source order. -/
theorem claim10_nonpositive_count_singletons {T E : Type} (l : List T) (k : Int)
    (hk : k ≤ 0) :
    op.BufferWithCount (E := E) (l.map trx.Ok) k = l.map (fun a => trx.Ok [a]) :=
  op.bufferLoop_singletons k hk l

theorem claim10_witness :
    (-1 : Int) ≤ 0 ∧
    op.BufferWithCount (E := Nat) (([4, 5] : List Nat).map trx.Ok) (-1)
      = ([4, 5] : List Nat).map (fun a => trx.Ok [a]) :=
  ⟨by decide, claim10_nonpositive_count_singletons [4, 5] (-1) (by decide)⟩
